import Mathlib

/-!
A verification development for the context-hub incremental synchronization
pipeline (Rust sources under `src/`): the tolerant LLM-response parser
(`src/core/llm.rs`), the SQLite-backed context store (`src/core/storage.rs`),
commit-range resolution (`src/core/git.rs`), and the sync orchestration
(`src/commands/sync.rs`, `src/core/context.rs`).

Rust strings are embedded as lists of Unicode scalar values (`List Char`)
together with explicit UTF-8 byte accounting, because the Rust code indexes
and slices strings by BYTE offsets (`str::find`, `str::len`, range slicing)
and such a slice panics when an offset is out of order or not on a character
boundary.  A fallible slice is embedded as an `Option`: `none` models a Rust
panic.

SQLite timestamps are stored by the program as RFC3339 strings of UTC times
and compared by SQL string comparison; on such strings the lexicographic
order agrees with chronological order, so the embedding represents every
timestamp as an integer with the usual order.
-/

namespace ContextHub

/-- A Rust `String` / `&str` value: its list of Unicode scalar values. -/
abbrev RStr := List Char

/-- The characters of a Lean string literal, as an `RStr`. -/
def str (s : String) : RStr := s.data

/-- The UTF-8 encoding width in bytes of one Unicode scalar value. -/
def utf8Len (c : Char) : Nat :=
  if c.toNat < 0x80 then 1
  else if c.toNat < 0x800 then 2
  else if c.toNat < 0x10000 then 3
  else 4

/-- Rust `str::len`: the length of the string in UTF-8 bytes. -/
def byteLen (s : RStr) : Nat := s.foldr (fun c n => utf8Len c + n) 0

/-- The opening-brace character, written via its code point (0x7b). -/
def lbraceChar : Char := Char.ofNat 123

/-- The closing-brace character, written via its code point (0x7d). -/
def rbraceChar : Char := Char.ofNat 125

/-- Rust `str::find(char)`: the BYTE index of the first occurrence. -/
def findByteIdx : RStr → Char → Option Nat
  | [], _ => none
  | c :: s, t => if c = t then some 0 else (findByteIdx s t).map (fun i => i + utf8Len c)

/-- Rust `str::rfind(char)`: the BYTE index of the last occurrence. -/
def rfindByteIdx : RStr → Char → Option Nat
  | [], _ => none
  | c :: s, t =>
    match rfindByteIdx s t with
    | some i => some (i + utf8Len c)
    | none => if c = t then some 0 else none

/-- The characters making up the first `n` BYTES of a string; `none` when the
string is shorter than `n` bytes or byte `n` is not a character boundary
(where Rust slicing panics). -/
def takeBytes : RStr → Nat → Option RStr
  | _, 0 => some []
  | [], _ + 1 => none
  | c :: s, n + 1 =>
    if utf8Len c ≤ n + 1 then (takeBytes s (n + 1 - utf8Len c)).map (fun t => c :: t)
    else none

/-- The string with its first `n` BYTES removed; `none` when that is not a
character-boundary-aligned prefix (where Rust slicing panics). -/
def dropBytes : RStr → Nat → Option RStr
  | s, 0 => some s
  | [], _ + 1 => none
  | c :: s, n + 1 =>
    if utf8Len c ≤ n + 1 then dropBytes s (n + 1 - utf8Len c) else none

/-- Rust `&s[a..b]` on byte offsets: `none` models the panic (offsets out of
order, past the end, or inside a multi-byte character). -/
def sliceBytes (s : RStr) (a b : Nat) : Option RStr :=
  if a ≤ b then (dropBytes s a).bind (fun t => takeBytes t (b - a)) else none

/-- `ExtractedContext` of `src/core/llm.rs`. -/
structure ExtractedContext where
  summary : RStr
  files_changed : List RStr
  key_details : List RStr
  technologies : List RStr
  impact : RStr
deriving DecidableEq, Repr

/-- The `RawContext` shape that `parse_response` deserializes: `summary` is
required, every other field defaults to empty when absent (serde defaults);
a successfully parsed but absent `impact` is the empty string. -/
structure RawContext where
  summary : RStr
  files_changed : List RStr
  key_details : List RStr
  technologies : List RStr
  impact : RStr
deriving DecidableEq, Repr

/-- The `ExtractedContext` built from a successful structural parse: `impact`
defaults to `"medium"` when it parsed empty (`src/core/llm.rs:164-171`). -/
def fromRaw (raw : RawContext) : ExtractedContext :=
  ⟨raw.summary, raw.files_changed, raw.key_details, raw.technologies,
    if raw.impact = [] then str "medium" else raw.impact⟩

/-- Outcome of the brace-delimited structural-parse attempt inside
`parse_response` (`src/core/llm.rs:145-173`): `panic` when the byte slice
`response[start..=end]` panics, `parsed` on serde success, `fallthrough`
when no brace pair is found or serde fails. -/
inductive BraceOutcome where
  | panic
  | parsed (ctx : ExtractedContext)
  | fallthrough
deriving DecidableEq, Repr

/-- The brace-delimited parse attempt of `parse_response`, parameterised by
`jp`, the embedding of `serde_json::from_str::<RawContext>` (an external
library call): locate the first opening and the last closing brace by byte
index and slice `response[start..=end]` (i.e. bytes `start..end+1`). -/
def braceStep (jp : RStr → Option RawContext) (response : RStr) : BraceOutcome :=
  match findByteIdx response lbraceChar, rfindByteIdx response rbraceChar with
  | some s, some e =>
    match sliceBytes response s (e + 1) with
    | none => .panic
    | some js =>
      match jp js with
      | some raw => .parsed (fromRaw raw)
      | none => .fallthrough
  | _, _ => .fallthrough

/-- The fallback record of `parse_response` (`src/core/llm.rs:175-181`):
summary is `"Raw LLM response: "` followed by the first
`response.len().min(200)` BYTES of the response (`none` models the panic
when byte 200 is not a character boundary). -/
def fallbackContext (response : RStr) : Option ExtractedContext :=
  (takeBytes response (min (byteLen response) 200)).map (fun p =>
    ⟨str "Raw LLM response: " ++ p, [], [], [], str "low"⟩)

/-- `LlmProcessor::parse_response` (`src/core/llm.rs:134-182`).  `none`
models a Rust panic; `jp` abstracts the serde deserialization, which is
never consulted on the paths a panic or the empty/fallback records take. -/
def parse_response (jp : RStr → Option RawContext) (response : RStr) :
    Option ExtractedContext :=
  if response = [] then
    some ⟨str "Empty response from LLM", [], [], [], str "low"⟩
  else
    match braceStep jp response with
    | .panic => none
    | .parsed ctx => some ctx
    | .fallthrough => fallbackContext response

/-- A response whose first opening brace comes after its last closing brace. -/
def reorderedBraces : RStr := [rbraceChar, ' ', 'a', ' ', lbraceChar]

/-- The letter e with acute accent (U+00E9), a 2-byte character in UTF-8. -/
def eAcute : Char := Char.ofNat 233

/-- `CommitInfo` of `src/core/git.rs`.  `date` is the commit's UTC timestamp:
the source renders it as an RFC3339 string whose lexicographic order is the
chronological order, embedded here as an integer. -/
structure CommitInfo where
  hash : RStr
  short_hash : RStr
  message : RStr
  author : RStr
  date : Int
  parent_hashes : List RStr
deriving DecidableEq, Repr

/-- One row of the `global_context` table (`Storage::init_tables`,
`src/core/storage.rs:44-56`): `id INTEGER PRIMARY KEY` (the rowid),
`commit_hash TEXT UNIQUE`, `created_at TEXT DEFAULT CURRENT_TIMESTAMP`.
The source stores `files_changed` as its serde_json rendering; the embedding
keeps the list itself (an injective image). -/
structure GlobalContext where
  id : Nat
  commit_hash : RStr
  commit_message : RStr
  commit_date : Int
  context_summary : RStr
  files_changed : List RStr
  llm_extracted_context : RStr
  created_at : Int
deriving DecidableEq, Repr

/-- One row of the `ttl_memory` table (`src/core/storage.rs:58-67`): no
uniqueness constraint on `commit_hash`. -/
structure TtlMemory where
  id : Nat
  commit_hash : RStr
  content : RStr
  expires_at : Int
  created_at : Int
deriving DecidableEq, Repr

/-- The largest rowid present in the `global_context` table (0 when empty):
SQLite assigns `largest rowid + 1` to an INSERT that does not specify the
INTEGER PRIMARY KEY. -/
def maxRowId (rows : List GlobalContext) : Nat :=
  rows.foldr (fun r m => max r.id m) 0

/-- The largest rowid present in the `ttl_memory` table (0 when empty). -/
def maxTtlId (rows : List TtlMemory) : Nat :=
  rows.foldr (fun r m => max r.id m) 0

/-- `Storage::has_commit` (`src/core/storage.rs:88-95`):
`SELECT COUNT(*) ... WHERE commit_hash = ?1`, then `count > 0`. -/
def has_commit (rows : List GlobalContext) (h : RStr) : Bool :=
  decide (0 < rows.countP (fun r => decide (r.commit_hash = h)))

/-- `Storage::store_global_context` (`src/core/storage.rs:97-121`):
`INSERT OR REPLACE INTO global_context (commit_hash, commit_message,
commit_date, context_summary, files_changed, llm_extracted_context)`.
The REPLACE conflict resolution on the UNIQUE `commit_hash` column deletes
any pre-existing row for that hash; the new row's unspecified `id` is
assigned by SQLite when the insert begins — one more than the largest rowid,
computed before the conflicting row is removed — and its unspecified
`created_at` takes the `CURRENT_TIMESTAMP` default, the clock `now`. -/
def store_global_context (now : Int) (rows : List GlobalContext)
    (commit : CommitInfo) (context_summary : RStr)
    (files_changed : List RStr) (llm_extracted_json : RStr) :
    List GlobalContext :=
  rows.filter (fun r => decide (r.commit_hash ≠ commit.hash))
    ++ [⟨maxRowId rows + 1, commit.hash, commit.message, commit.date,
          context_summary, files_changed, llm_extracted_json, now⟩]

/-- The row `SELECT ... ORDER BY commit_date DESC LIMIT 1` returns: a row
with maximal `commit_date` (ties: which of the equal-dated rows SQLite
returns is unspecified; the embedding keeps the earliest in row order). -/
def latestByDate (rows : List GlobalContext) : Option GlobalContext :=
  rows.foldl (fun acc r =>
    match acc with
    | none => some r
    | some b => if b.commit_date < r.commit_date then some r else some b) none

/-- `Storage::get_latest_context_summary` (`src/core/storage.rs:124-130`). -/
def get_latest_context_summary (rows : List GlobalContext) : Option RStr :=
  (latestByDate rows).map (fun r => r.context_summary)

/-- `Storage::get_context_count` (`src/core/storage.rs:265-270`). -/
def get_context_count (rows : List GlobalContext) : Nat := rows.length

/-- `Storage::store_ttl_memory` (`src/core/storage.rs:207-221`): appends a
row with `expires_at = now + Duration::days(ttl_days)` (86400 seconds per
day; `ttl_days` is an i32 and may be negative). -/
def store_ttl_memory (now : Int) (rows : List TtlMemory) (commit_hash : RStr)
    (content : RStr) (ttl_days : Int) : List TtlMemory :=
  rows ++ [⟨maxTtlId rows + 1, commit_hash, content,
            now + ttl_days * 86400, now⟩]

/-- The `ORDER BY created_at DESC` order on `ttl_memory` rows. -/
def createdDesc (a b : TtlMemory) : Prop := b.created_at ≤ a.created_at

instance : DecidableRel createdDesc := fun a b => Int.decLe _ _

instance : IsTotal TtlMemory createdDesc :=
  ⟨fun a b => le_total b.created_at a.created_at⟩

instance : IsTrans TtlMemory createdDesc :=
  ⟨fun _ _ _ h1 h2 => le_trans h2 h1⟩

/-- `Storage::get_ttl_memory` (`src/core/storage.rs:223-250`):
`WHERE expires_at > ?1 ORDER BY created_at DESC` with `?1` the current
time; a read, it does not modify the table. -/
def get_ttl_memory (now : Int) (rows : List TtlMemory) : List TtlMemory :=
  List.insertionSort createdDesc
    (rows.filter (fun r => decide (now < r.expires_at)))

/-- `Storage::clear_ttl_memory` (`src/core/storage.rs:252-255`). -/
def clear_ttl_memory (rows : List TtlMemory) : List TtlMemory := []

/-- `Storage::cleanup_expired_ttl` (`src/core/storage.rs:257-263`): DELETE
`WHERE expires_at <= ?1`; yields the remaining table and the number of rows
removed (rusqlite's `execute` returns the changed-row count). -/
def cleanup_expired_ttl (now : Int) (rows : List TtlMemory) :
    List TtlMemory × Nat :=
  (rows.filter (fun r => decide (now < r.expires_at)),
   rows.countP (fun r => decide (r.expires_at ≤ now)))

/-- The `commit_hash` column's UNIQUE constraint, as a table invariant. -/
def HashUnique (rows : List GlobalContext) : Prop :=
  rows.Pairwise (fun a b => a.commit_hash ≠ b.commit_hash)

/-- Sample durable row for the witnesses. -/
def rowA : GlobalContext :=
  ⟨1, str "aaa1", str "first", 1, str "s0", [], str "", 5⟩

/-- Sample commit with the same hash as `rowA`. -/
def commitA : CommitInfo :=
  ⟨str "aaa1", str "aaa1", str "first", str "al", 1, []⟩

/-- Sample TTL rows for the C4 witness: `ttlR1` expired at clock 100. -/
def ttlR1 : TtlMemory := ⟨1, str "aaa1", str "m1", 50, 10⟩

/-- Sample unexpired TTL row. -/
def ttlR2 : TtlMemory := ⟨2, str "bbb2", str "m2", 200, 20⟩

/-- A commit as the repository backend records it (`src/core/git.rs`
builds a `CommitInfo` from it; `time` is the commit timestamp). -/
structure RepoCommit where
  hash : RStr
  message : RStr
  author : RStr
  time : Int
  parents : List RStr
deriving DecidableEq, Repr

/-- A repository: its commit objects. -/
structure Repo where
  commits : List RepoCommit
deriving DecidableEq, Repr

/-- Resolving a reference string to a commit object; `none` when it does not
name a commit of the repository (where `Oid::from_str` or
`revwalk.push`/`revwalk.hide` fail). -/
def lookupCommit (repo : Repo) (h : RStr) : Option RepoCommit :=
  repo.commits.find? (fun c => decide (c.hash = h))

/-- The parent hashes of the commit named `h` (empty when unknown). -/
def parentsOf (repo : Repo) (h : RStr) : List RStr :=
  match lookupCommit repo h with
  | some c => c.parents
  | none => []

/-- One step of ancestor expansion: add every parent of the set. -/
def reachStep (repo : Repo) (s : List RStr) : List RStr :=
  (s ++ s.flatMap (parentsOf repo)).dedup

/-- The hashes reachable from `h` (including `h`): `|commits|` expansion
steps reach the fixpoint on any repository whose parent edges stay inside
its commit list. -/
def reachSet (repo : Repo) (h : RStr) : List RStr :=
  Nat.iterate (reachStep repo) repo.commits.length [h]

/-- The embedding of libgit2 revwalk reachability: is `x` reachable from
`h` (`h` itself included)? -/
def reachable (repo : Repo) (h x : RStr) : Bool :=
  decide (x ∈ reachSet repo h)

/-- The newest-first order on commits (timestamp descending). -/
def newestFirst (a b : RepoCommit) : Prop := b.time ≤ a.time

instance : DecidableRel newestFirst := fun a b => Int.decLe _ _

/-- The number of commits in `s` that list `h` among their parents: `h`'s
children within the walked set. -/
def childCountIn (s : List RepoCommit) (h : RStr) : Nat :=
  s.countP (fun d => decide (h ∈ d.parents))

/-- A commit the topological walk may emit next: none of its children
within the remaining set is still pending (the walk shows every child
before its parent). -/
def isReady (s : List RepoCommit) (c : RepoCommit) : Bool :=
  decide (childCountIn s c.hash = 0)

/-- The candidates the walk chooses from: the ready commits; on a remaining
set with no ready commit — a parent cycle, impossible for a real
content-addressed commit graph — fall back to the whole remaining set so
the walk still emits every commit. -/
def readyOrAll (s : List RepoCommit) : List RepoCommit :=
  if s.filter (isReady s) = [] then s else s.filter (isReady s)

/-- The commit the time-ordered queue yields: maximal timestamp, the
earliest in list order among ties. -/
def maxByTime : List RepoCommit → Option RepoCommit
  | [] => none
  | c :: cs =>
    match maxByTime cs with
    | none => some c
    | some b => if c.time < b.time then some b else some c

/-- The `Sort::TIME | Sort::TOPOLOGICAL` revwalk order (git's date-order):
repeatedly emit, among the commits all of whose children in the walked set
are already emitted, the one with the newest timestamp.  The topological
constraint is hard — a parent is never shown before one of its children —
and the timestamp only chooses among the ready commits, so under clock skew
the output need not be timestamp-sorted.  Fuel is the set's size; each step
removes the emitted commit. -/
def topoTimeWalk : Nat → List RepoCommit → List RepoCommit
  | 0, _ => []
  | n + 1, s =>
    match maxByTime (readyOrAll s) with
    | none => []
    | some c => c :: topoTimeWalk n (s.erase c)

/-- The error `get_commit_range` surfaces when an endpoint does not resolve. -/
inductive GitError where
  | invalidReference
deriving DecidableEq, Repr

/-- The commit set a revwalk pushed at `to_commit` with `from_commit`
hidden visits: reachable from `to_commit`, not reachable from
`from_commit`. -/
def walkSet (repo : Repo) (from_commit to_commit : RStr) : List RepoCommit :=
  repo.commits.filter (fun c =>
    reachable repo to_commit c.hash && ! reachable repo from_commit c.hash)

/-- `GitAnalyzer::get_commit_range` (`src/core/git.rs:56-92`): a revwalk
pushed at `to_commit` with `from_commit` hidden — the commits reachable from
`to_commit` minus `from_commit` and everything it reaches — emitted in the
`Sort::TIME | Sort::TOPOLOGICAL` order of `topoTimeWalk`.  Resolution of
either endpoint fails with an error when the string does not name a commit
of the repository. -/
def get_commit_range (repo : Repo) (from_commit to_commit : RStr) :
    Except GitError (List RepoCommit) :=
  match lookupCommit repo from_commit, lookupCommit repo to_commit with
  | some _, some _ =>
    .ok (topoTimeWalk (walkSet repo from_commit to_commit).length
      (walkSet repo from_commit to_commit))
  | _, _ => .error .invalidReference

/-- Root commit A of the linear three-commit history. -/
def commitRootA : RepoCommit := ⟨str "a", str "ma", str "u", 1, []⟩

/-- Commit B, child of A. -/
def commitMidB : RepoCommit := ⟨str "b", str "mb", str "u", 2, [str "a"]⟩

/-- Commit C, child of B. -/
def commitTipC : RepoCommit := ⟨str "c", str "mc", str "u", 3, [str "b"]⟩

/-- The linear history A(root) → B → C. -/
def repoABC : Repo := ⟨[commitRootA, commitMidB, commitTipC]⟩

/-- Root of the clock-skewed linear history (time 1). -/
def skewRootA : RepoCommit := ⟨str "a", str "ma", str "u", 1, []⟩

/-- Middle commit of the skewed history: child of A with time 5, NEWER than
its own child C — clock skew. -/
def skewMidB : RepoCommit := ⟨str "b", str "mb", str "u", 5, [str "a"]⟩

/-- Tip of the skewed history: child of B with time 3, older than B. -/
def skewTipC : RepoCommit := ⟨str "c", str "mc", str "u", 3, [str "b"]⟩

/-- The clock-skewed linear history A(t=1) → B(t=5) → C(t=3). -/
def repoSkew : Repo := ⟨[skewRootA, skewMidB, skewTipC]⟩

/-- Rust `str::lines` helper: the segments between newline characters. -/
def splitNl : RStr → List RStr
  | [] => [[]]
  | c :: t =>
    if c = '\n' then [] :: splitNl t
    else
      match splitNl t with
      | [] => [[c]]
      | l :: ls => (c :: l) :: ls

/-- A trailing carriage return is not part of a line. -/
def stripCr (l : RStr) : RStr :=
  if l.getLast? = some '\r' then l.dropLast else l

/-- Rust `str::lines`: newline-separated lines, without a final empty
segment and without trailing carriage returns. -/
def rustLines (s : RStr) : List RStr :=
  let ps := splitNl s
  (if ps.getLast? = some ([] : RStr) then ps.dropLast else ps).map stripCr

/-- Rust `str::replace`: replace the non-overlapping occurrences of `pat`,
left to right (both call sites pass a nonempty pattern). -/
def replaceAll (pat rep : RStr) : RStr → RStr
  | [] => []
  | c :: t =>
    if h : pat.isPrefixOf (c :: t) = true ∧ pat ≠ [] then
      rep ++ replaceAll pat rep ((c :: t).drop pat.length)
    else
      c :: replaceAll pat rep t
termination_by s => s.length
decreasing_by
  · have hle : pat.length ≤ (c :: t).length := (List.isPrefixOf_iff_prefix.mp h.1).length_le
    have hpos : 0 < pat.length := List.length_pos.mpr h.2
    simp only [List.length_drop]
    omega
  · simp

/-- The changed-file set `ContextProcessor::process_commit` derives from the
diff (`src/core/context.rs:40-46`): lines starting with `+++ b/` or
`--- a/`, those markers removed, collected through a `HashSet` (the
embedding keeps first occurrences; the source's set iteration order is
arbitrary and nowhere significant). -/
def changedFiles (diff : RStr) : List RStr :=
  (((rustLines diff).filter (fun l =>
      List.isPrefixOf (str "+++ b/") l || List.isPrefixOf (str "--- a/") l)).map
    (fun l => replaceAll (str "--- a/") [] (replaceAll (str "+++ b/") [] l))).dedup

/-- The environment one sync invocation runs against: the repository's diff
reader (`GitAnalyzer::get_diff`), the extraction backend
(`LlmProcessor::extract_context`: message, diff, changed files, optional
previous context — a network call), which `has_commit` store reads fault,
the preflight probe's answer (`is_ollama_running`), the configured TTL days,
and the clock. -/
structure SyncEnv where
  getDiff : RStr → Except Unit RStr
  extract : RStr → RStr → List RStr → Option RStr → Except Unit ExtractedContext
  hasCommitFault : RStr → Bool
  ollamaRunning : Bool
  ttlDays : Int
  now : Int

/-- `Storage::has_commit` as the orchestrator calls it: an `anyhow::Result`
whose error case is a store read failure. -/
def has_commit_result (env : SyncEnv) (rows : List GlobalContext) (h : RStr) :
    Except Unit Bool :=
  if env.hasCommitFault h then .error () else .ok (has_commit rows h)

/-- Rust `Result::unwrap_or`. -/
def unwrapOr {ε α : Type} : Except ε α → α → α
  | .ok a, _ => a
  | .error _, d => d

/-- The dedup predicate of `sync_context` (`src/commands/sync.rs:35`):
`retain(|c| !processor.has_commit(&c.hash).unwrap_or(false))`.  The call
delegates to `Storage::has_commit` (the forwarding method on
`ContextProcessor` is not present in `src/core/context.rs` as written). -/
def dedupKeep (env : SyncEnv) (rows : List GlobalContext) (c : CommitInfo) :
    Bool :=
  ! (unwrapOr (has_commit_result env rows c.hash) false)

/-- `ContextProcessor::process_commit` (`src/core/context.rs:37-65`): compute
the diff, derive the changed files, invoke extraction, and on success store
a durable entry and then a TTL entry.  As written the source neither calls
`get_latest_context_summary` nor passes any previous-context value — its
`extract_context` call names only (message, diff, files), omitting the
fourth parameter of `LlmProcessor::extract_context` — so the embedding
invokes the extraction with `none`; the `store_global_context` call likewise
omits the `llm_extracted_json` argument, so the embedding stores an empty
payload there. -/
def process_commit (env : SyncEnv) (g : List GlobalContext)
    (t : List TtlMemory) (c : CommitInfo) :
    Except Unit ExtractedContext × List GlobalContext × List TtlMemory :=
  match env.getDiff c.hash with
  | .error e => (.error e, g, t)
  | .ok diff =>
    let files := changedFiles diff
    match env.extract c.message diff files none with
    | .error e => (.error e, g, t)
    | .ok ctx =>
      (.ok ctx,
       store_global_context env.now g c ctx.summary files (str ""),
       store_ttl_memory env.now t c.hash ctx.summary env.ttlDays)

/-- The per-commit loop of `sync_context` (`src/commands/sync.rs:56-71`):
strictly sequential; a failed commit is reported (the ✗ print) and the loop
continues with the next commit.  Yields the final tables and the per-commit
report (hash, success flag) in processing order. -/
def syncLoop (env : SyncEnv) :
    List CommitInfo → List GlobalContext → List TtlMemory →
    List GlobalContext × List TtlMemory × List (RStr × Bool)
  | [], g, t => (g, t, [])
  | c :: cs, g, t =>
    match process_commit env g t c with
    | (.ok _, g2, t2) =>
      let r := syncLoop env cs g2 t2
      (r.1, r.2.1, (c.hash, true) :: r.2.2)
    | (.error _, g2, t2) =>
      let r := syncLoop env cs g2 t2
      (r.1, r.2.1, (c.hash, false) :: r.2.2)

/-- The one fatal error `sync_context` returns after candidate resolution:
the preflight reachability failure. -/
inductive SyncErr where
  | ollamaNotRunning
deriving DecidableEq, Repr

/-- What one `sync_context` invocation leaves behind and reports: the two
tables, the skipped (already-processed) count, and the per-commit outcomes. -/
structure SyncReport where
  global : List GlobalContext
  ttl : List TtlMemory
  skipped : Nat
  outcomes : List (RStr × Bool)
deriving DecidableEq, Repr

/-- `sync_context` (`src/commands/sync.rs:8-79`), after candidate resolution
(the resolved newest-first candidate list is `commits`): return early when
it is empty; reverse to oldest-first; drop commits whose dedup predicate is
false and count them as skipped; return early when none remain; fail when
the preflight probe is down; otherwise run the per-commit loop. -/
def sync_context (env : SyncEnv) (g0 : List GlobalContext)
    (t0 : List TtlMemory) (commits : List CommitInfo) :
    Except SyncErr SyncReport :=
  if commits = [] then .ok ⟨g0, t0, 0, []⟩
  else if commits.reverse.filter (dedupKeep env g0) = [] then
    .ok ⟨g0, t0,
      commits.reverse.length
        - (commits.reverse.filter (dedupKeep env g0)).length, []⟩
  else if env.ollamaRunning = false then .error .ollamaNotRunning
  else
    .ok ⟨(syncLoop env (commits.reverse.filter (dedupKeep env g0)) g0 t0).1,
         (syncLoop env (commits.reverse.filter (dedupKeep env g0)) g0 t0).2.1,
         commits.reverse.length
           - (commits.reverse.filter (dedupKeep env g0)).length,
         (syncLoop env (commits.reverse.filter (dedupKeep env g0)) g0 t0).2.2⟩

/-- Concrete data for the C8 witness: an always-succeeding backend. -/
def ctxW8 : ExtractedContext := ⟨str "s8", [], [], [], str "low"⟩

/-- The C8 witness environment. -/
def envW8 : SyncEnv :=
  ⟨fun _ => .ok [], fun _ _ _ _ => .ok ctxW8, fun _ => false, true, 7, 100⟩

/-- The C8 witness commit. -/
def commitW8 : CommitInfo := ⟨str "k8", str "k8", str "m8", str "u", 1, []⟩

/-- The C9 witness environment: every `has_commit` read faults. -/
def envW9 : SyncEnv :=
  ⟨fun _ => .ok [],
   fun _ _ _ _ => .ok ⟨str "s9", [], [], [], str "low"⟩,
   fun _ => true, true, 7, 100⟩

/-- The C9 witness commit. -/
def commitW9 : CommitInfo := ⟨str "k9", str "k9", str "m9", str "u", 1, []⟩

/-- The C5 witness backend: extraction fails exactly on message `"m2"`. -/
def envW5 : SyncEnv :=
  ⟨fun _ => .ok [],
   fun m _ _ _ =>
     if m = str "m2" then .error ()
     else .ok ⟨str "s5", [], [], [], str "low"⟩,
   fun _ => false, true, 7, 100⟩

/-- The C5 witness batch, oldest first: k1, k2 (failing), k3. -/
def commitW5a : CommitInfo := ⟨str "k1", str "k1", str "m1", str "u", 1, []⟩

/-- Second (failing) C5 witness commit. -/
def commitW5b : CommitInfo := ⟨str "k2", str "k2", str "m2", str "u", 2, []⟩

/-- Third C5 witness commit. -/
def commitW5c : CommitInfo := ⟨str "k3", str "k3", str "m3", str "u", 3, []⟩

/-- The recording backend for the chaining probe: the summary it returns
encodes exactly the previous-context argument the extraction was invoked
with. -/
def encodePrev : Option RStr → RStr
  | none => str "NOPREV"
  | some s => str "PREV:" ++ s

/-- The chaining-probe environment. -/
def probeEnv : SyncEnv :=
  ⟨fun _ => .ok [],
   fun _ _ _ prev => .ok ⟨encodePrev prev, [], [], [], str "low"⟩,
   fun _ => false, true, 7, 100⟩

/-- First (oldest) commit of the chaining probe batch. -/
def batchA : CommitInfo := ⟨str "ca", str "ca", str "m1", str "u", 1, []⟩

/-- Second commit of the chaining probe batch. -/
def batchB : CommitInfo :=
  ⟨str "cb", str "cb", str "m2", str "u", 2, [str "ca"]⟩

/-- Third (newest) commit of the chaining probe batch. -/
def batchC : CommitInfo :=
  ⟨str "cc", str "cc", str "m3", str "u", 3, [str "cb"]⟩

theorem utf8Len_pos (c : Char) : 0 < utf8Len c := by
  unfold utf8Len
  split <;> [exact Nat.zero_lt_one; split <;> [exact Nat.zero_lt_two; split <;> simp]]

theorem countP_hash_eq_one {rows : List GlobalContext} {h : RStr}
    (huniq : HashUnique rows)
    (hpos : 0 < rows.countP (fun r => decide (r.commit_hash = h))) :
    rows.countP (fun r => decide (r.commit_hash = h)) = 1 := by
  induction rows with
  | nil => simp at hpos
  | cons r rs ih =>
    rcases List.pairwise_cons.mp huniq with ⟨hr, hrs⟩
    by_cases hc : r.commit_hash = h
    · have hz : rs.countP (fun x => decide (x.commit_hash = h)) = 0 := by
        refine List.countP_eq_zero.mpr (fun x hx => ?_)
        simp only [decide_eq_true_eq]
        exact fun hxh => (hr x hx) (hc.trans hxh.symm)
      simp [List.countP_cons, hc, hz]
    · have hpos2 : 0 < rs.countP (fun x => decide (x.commit_hash = h)) := by
        simpa [List.countP_cons, hc] using hpos
      simpa [List.countP_cons, hc] using ih hrs hpos2

theorem filterNe_length_add_countP (rows : List GlobalContext) (h : RStr) :
    (rows.filter (fun r => decide (r.commit_hash ≠ h))).length
      + rows.countP (fun r => decide (r.commit_hash = h)) = rows.length := by
  induction rows with
  | nil => rfl
  | cons r rs ih =>
    by_cases hc : r.commit_hash = h <;>
      simp [List.filter_cons, List.countP_cons, hc, ← ih] <;> omega

theorem countP_store_global_context (now : Int) (rows : List GlobalContext)
    (commit : CommitInfo) (s : RStr) (fs : List RStr) (j : RStr) :
    (store_global_context now rows commit s fs j).countP
        (fun r => decide (r.commit_hash = commit.hash)) = 1 := by
  unfold store_global_context
  rw [List.countP_append]
  have hz : (rows.filter (fun r => decide (r.commit_hash ≠ commit.hash))).countP
      (fun r => decide (r.commit_hash = commit.hash)) = 0 := by
    refine List.countP_eq_zero.mpr (fun x hx => ?_)
    have := (List.mem_filter.mp hx).2
    simpa using this
  simp [hz]

/-- C3: storing a global context entry for a commit hash already present in
the durable table replaces the prior row: afterwards exactly one row carries
that `commit_hash`, and the durable entry count is unchanged, so re-syncing
the same commit never grows the table. -/
theorem store_global_context_upsert (now : Int) (rows : List GlobalContext)
    (commit : CommitInfo) (s : RStr) (fs : List RStr) (j : RStr)
    (huniq : HashUnique rows)
    (hmem : has_commit rows commit.hash = true) :
    (store_global_context now rows commit s fs j).countP
        (fun r => decide (r.commit_hash = commit.hash)) = 1
    ∧ (store_global_context now rows commit s fs j).length = rows.length := by
  refine ⟨countP_store_global_context now rows commit s fs j, ?_⟩
  have hpos : 0 < rows.countP (fun r => decide (r.commit_hash = commit.hash)) := by
    simpa [has_commit] using hmem
  have hone := countP_hash_eq_one huniq hpos
  have hlen := filterNe_length_add_countP rows commit.hash
  have hstore : (store_global_context now rows commit s fs j).length
      = (rows.filter (fun r => decide (r.commit_hash ≠ commit.hash))).length
        + 1 := by
    simp [store_global_context]
  omega

/-- C3 (witness): re-storing the already-present hash `"aaa1"` in a one-row
table leaves exactly one row for it and an unchanged entry count. -/
theorem store_global_context_upsert_witness :
    (store_global_context 9 [rowA] commitA (str "s1") [] (str "")).countP
        (fun r => decide (r.commit_hash = commitA.hash)) = 1
    ∧ (store_global_context 9 [rowA] commitA (str "s1") [] (str "")).length
        = [rowA].length :=
  store_global_context_upsert 9 [rowA] commitA (str "s1") [] (str "")
    (by simp [HashUnique]) (by decide)

theorem id_le_maxRowId {r : GlobalContext} {rows : List GlobalContext}
    (hr : r ∈ rows) : r.id ≤ maxRowId rows := by
  induction rows with
  | nil => cases hr
  | cons a l ih =>
    rcases List.mem_cons.mp hr with h | h
    · subst h; simp [maxRowId]
    · have := ih h
      simp only [maxRowId, List.foldr_cons] at *
      omega

/-- C10: re-upserting an existing commit hash does not preserve the prior
row's identity metadata: the surviving row for that hash is unique, carries
the freshly assigned rowid `maxRowId rows + 1` — strictly larger than the
replaced row's id — and a `created_at` equal to the time of the re-upsert,
which differs from the original whenever the clock has moved. -/
theorem upsert_fresh_id_and_timestamp (now : Int) (rows : List GlobalContext)
    (commit : CommitInfo) (s : RStr) (fs : List RStr) (j : RStr)
    (old : GlobalContext) (hold : old ∈ rows)
    (hhash : old.commit_hash = commit.hash)
    (hnow : now ≠ old.created_at) :
    ∃ q, q ∈ store_global_context now rows commit s fs j
      ∧ q.commit_hash = commit.hash
      ∧ (∀ p ∈ store_global_context now rows commit s fs j,
          p.commit_hash = commit.hash → p = q)
      ∧ q.id = maxRowId rows + 1
      ∧ old.id < q.id
      ∧ q.created_at = now
      ∧ q.created_at ≠ old.created_at := by
  refine ⟨⟨maxRowId rows + 1, commit.hash, commit.message, commit.date,
    s, fs, j, now⟩, ?_, rfl, ?_, rfl, ?_, rfl, hnow⟩
  · unfold store_global_context
    exact List.mem_append_right _ (List.mem_singleton.mpr rfl)
  · intro p hp hphash
    unfold store_global_context at hp
    rcases List.mem_append.mp hp with h | h
    · exact absurd hphash (by simpa using (List.mem_filter.mp h).2)
    · exact List.mem_singleton.mp h
  · exact Nat.lt_succ_of_le (id_le_maxRowId hold)

/-- C10 (witness): re-upserting hash `"aaa1"` over the one-row table at clock
9 yields a unique surviving row with fresh id 2 and `created_at` 9 ≠ 5. -/
theorem upsert_fresh_id_and_timestamp_witness :
    ∃ q, q ∈ store_global_context 9 [rowA] commitA (str "s1") [] (str "")
      ∧ q.commit_hash = commitA.hash
      ∧ (∀ p ∈ store_global_context 9 [rowA] commitA (str "s1") [] (str ""),
          p.commit_hash = commitA.hash → p = q)
      ∧ q.id = maxRowId [rowA] + 1
      ∧ rowA.id < q.id
      ∧ q.created_at = 9
      ∧ q.created_at ≠ rowA.created_at :=
  upsert_fresh_id_and_timestamp 9 [rowA] commitA (str "s1") [] (str "")
    rowA (by simp) (by decide) (by decide)

theorem mem_get_ttl_memory (now : Int) (rows : List TtlMemory)
    (x : TtlMemory) :
    x ∈ get_ttl_memory now rows ↔ x ∈ rows ∧ now < x.expires_at := by
  unfold get_ttl_memory
  rw [(List.perm_insertionSort createdDesc _).mem_iff]
  simp [List.mem_filter]

/-- C4: a TTL row whose `expires_at` is not after the clock is absent from
`get_ttl_memory`, whose result holds exactly the rows with
`expires_at > now` ordered newest-created first; the row stays in the table
(reads do not delete) until `cleanup_expired_ttl`, which keeps exactly the
unexpired rows and returns the number of rows with `expires_at <= now`. -/
theorem ttl_visibility_and_cleanup (now : Int) (rows : List TtlMemory)
    (r : TtlMemory) (hr : r ∈ rows) (hexp : r.expires_at ≤ now) :
    r ∉ get_ttl_memory now rows
    ∧ (∀ x, x ∈ get_ttl_memory now rows ↔ x ∈ rows ∧ now < x.expires_at)
    ∧ List.Sorted createdDesc (get_ttl_memory now rows)
    ∧ r ∈ rows
    ∧ (∀ x, x ∈ (cleanup_expired_ttl now rows).1
        ↔ x ∈ rows ∧ now < x.expires_at)
    ∧ r ∉ (cleanup_expired_ttl now rows).1
    ∧ (cleanup_expired_ttl now rows).2
        = (rows.filter (fun x => decide (x.expires_at ≤ now))).length := by
  refine ⟨?_, mem_get_ttl_memory now rows, ?_, hr, ?_, ?_, ?_⟩
  · intro hmem
    exact absurd ((mem_get_ttl_memory now rows r).mp hmem).2 (not_lt.mpr hexp)
  · exact List.sorted_insertionSort createdDesc _
  · intro x
    simp [cleanup_expired_ttl, List.mem_filter]
  · intro hmem
    have := (List.mem_filter.mp hmem).2
    exact absurd (by simpa using this) (not_lt.mpr hexp)
  · simp [cleanup_expired_ttl, List.countP_eq_length_filter]

/-- C4 (witness): at clock 100 the expired row `ttlR1` is invisible to
`get_ttl_memory` yet still present, and `cleanup_expired_ttl` reports one
deleted row. -/
theorem ttl_visibility_and_cleanup_witness :
    ttlR1 ∉ get_ttl_memory 100 [ttlR1, ttlR2]
    ∧ ttlR1 ∈ [ttlR1, ttlR2]
    ∧ ttlR1 ∉ (cleanup_expired_ttl 100 [ttlR1, ttlR2]).1
    ∧ (cleanup_expired_ttl 100 [ttlR1, ttlR2]).2 = 1 := by
  have h := ttl_visibility_and_cleanup 100 [ttlR1, ttlR2] ttlR1
    (by simp) (by decide)
  refine ⟨h.1, h.2.2.2.1, h.2.2.2.2.2.1, ?_⟩
  rw [h.2.2.2.2.2.2]
  decide

theorem isReady_iff (s : List RepoCommit) (c : RepoCommit) :
    isReady s c = true ↔ ∀ d ∈ s, c.hash ∉ d.parents := by
  unfold isReady childCountIn
  rw [decide_eq_true_eq, List.countP_eq_zero]
  simp

theorem not_isReady_child (s : List RepoCommit) (c : RepoCommit)
    (h : ¬ isReady s c = true) : ∃ d ∈ s, c.hash ∈ d.parents := by
  have hpos : 0 < childCountIn s c.hash := by
    rcases Nat.eq_zero_or_pos (childCountIn s c.hash) with h0 | h0
    · exact absurd (by simp [isReady, h0]) h
    · exact h0
  obtain ⟨d, hd, hdp⟩ := List.countP_pos.mp hpos
  exact ⟨d, hd, by simpa using hdp⟩

theorem maxByTime_eq_none {l : List RepoCommit}
    (h : maxByTime l = none) : l = [] := by
  cases l with
  | nil => rfl
  | cons a t =>
    cases hm : maxByTime t with
    | none =>
      simp only [maxByTime, hm] at h
      cases h
    | some b =>
      simp only [maxByTime, hm] at h
      split at h <;> cases h

theorem maxByTime_isSome {l : List RepoCommit} (h : l ≠ []) :
    ∃ c, maxByTime l = some c := by
  cases hm : maxByTime l with
  | none => exact absurd (maxByTime_eq_none hm) h
  | some c => exact ⟨c, rfl⟩

theorem maxByTime_mem {l : List RepoCommit} {c : RepoCommit}
    (h : maxByTime l = some c) : c ∈ l := by
  induction l with
  | nil => cases h
  | cons a t ih =>
    cases hm : maxByTime t with
    | none =>
      simp only [maxByTime, hm] at h
      obtain rfl : a = c := Option.some.inj h
      exact List.mem_cons_self a t
    | some b =>
      simp only [maxByTime, hm] at h
      split at h
      · obtain rfl : b = c := Option.some.inj h
        exact List.mem_cons_of_mem a (ih hm)
      · obtain rfl : a = c := Option.some.inj h
        exact List.mem_cons_self a t

theorem maxByTime_time_le {l : List RepoCommit} {c : RepoCommit}
    (h : maxByTime l = some c) : ∀ x ∈ l, x.time ≤ c.time := by
  induction l generalizing c with
  | nil => cases h
  | cons a t ih =>
    intro x hx
    cases hm : maxByTime t with
    | none =>
      simp only [maxByTime, hm] at h
      obtain rfl : a = c := Option.some.inj h
      have ht : t = [] := maxByTime_eq_none hm
      subst ht
      obtain rfl : x = a := by simpa using hx
      exact le_refl _
    | some b =>
      simp only [maxByTime, hm] at h
      split at h
      case isTrue hab =>
        obtain rfl : b = c := Option.some.inj h
        rcases List.mem_cons.mp hx with h1 | h1
        · subst h1; exact le_of_lt hab
        · exact ih hm x h1
      case isFalse hab =>
        obtain rfl : a = c := Option.some.inj h
        rcases List.mem_cons.mp hx with h1 | h1
        · subst h1; exact le_refl _
        · exact le_trans (ih hm x h1) (not_lt.mp hab)

theorem readyOrAll_subset (s : List RepoCommit) : readyOrAll s ⊆ s := by
  unfold readyOrAll
  split
  · exact fun x hx => hx
  · exact fun x hx => (List.mem_filter.mp hx).1

theorem readyOrAll_ne_nil {s : List RepoCommit} (h : s ≠ []) :
    readyOrAll s ≠ [] := by
  unfold readyOrAll
  split
  · exact h
  · assumption

theorem topoTimeWalk_perm : ∀ (n : Nat) (s : List RepoCommit),
    s.length = n → List.Perm (topoTimeWalk n s) s := by
  intro n
  induction n with
  | zero =>
    intro s hlen
    rw [List.length_eq_zero.mp hlen]
    exact List.Perm.refl _
  | succ n ih =>
    intro s hlen
    have hs : s ≠ [] := by
      intro h; rw [h] at hlen; simp at hlen
    obtain ⟨c, hc⟩ := maxByTime_isSome (readyOrAll_ne_nil hs)
    have hcs : c ∈ s := readyOrAll_subset s (maxByTime_mem hc)
    have hwalk : topoTimeWalk (n + 1) s = c :: topoTimeWalk n (s.erase c) := by
      simp only [topoTimeWalk, hc]
    rw [hwalk]
    have hperm := ih (s.erase c) (by rw [List.length_erase_of_mem hcs, hlen]; rfl)
    exact (hperm.cons c).trans (List.perm_cons_erase hcs).symm

theorem exists_min_rank (rank : RStr → Nat) :
    ∀ s : List RepoCommit, s ≠ [] →
      ∃ m ∈ s, ∀ d ∈ s, rank m.hash ≤ rank d.hash := by
  intro s
  induction s with
  | nil => exact fun h => absurd rfl h
  | cons a t ih =>
    intro _
    by_cases ht : t = []
    · subst ht
      refine ⟨a, List.mem_cons_self a [], ?_⟩
      intro d hd
      obtain rfl : d = a := by simpa using hd
      exact le_refl _
    · obtain ⟨m, hm, hmin⟩ := ih ht
      by_cases hcmp : rank a.hash ≤ rank m.hash
      · refine ⟨a, List.mem_cons_self a t, ?_⟩
        intro d hd
        rcases List.mem_cons.mp hd with h1 | h1
        · subst h1; exact le_refl _
        · exact le_trans hcmp (hmin d h1)
      · refine ⟨m, List.mem_cons_of_mem a hm, ?_⟩
        intro d hd
        rcases List.mem_cons.mp hd with h1 | h1
        · subst h1; exact le_of_lt (not_le.mp hcmp)
        · exact hmin d h1

theorem ready_filter_ne_nil (rank : RStr → Nat) (s : List RepoCommit)
    (hrank : ∀ d ∈ s, ∀ c ∈ s, c.hash ∈ d.parents → rank d.hash < rank c.hash)
    (hs : s ≠ []) : s.filter (isReady s) ≠ [] := by
  obtain ⟨m, hmem, hmin⟩ := exists_min_rank rank s hs
  have hready : isReady s m = true := by
    rw [isReady_iff]
    intro d hd hpar
    have h1 : rank d.hash < rank m.hash := hrank d hd m hmem hpar
    have h2 : rank m.hash ≤ rank d.hash := hmin d hd
    omega
  intro hnil
  have : m ∈ s.filter (isReady s) := List.mem_filter.mpr ⟨hmem, hready⟩
  rw [hnil] at this
  exact absurd this (List.not_mem_nil m)

theorem exists_ready_time_ge (rank : RStr → Nat) (s : List RepoCommit)
    (hrank : ∀ d ∈ s, ∀ c ∈ s, c.hash ∈ d.parents → rank d.hash < rank c.hash)
    (hns : ∀ d ∈ s, ∀ c ∈ s, c.hash ∈ d.parents → c.time ≤ d.time) :
    ∀ x ∈ s, ∃ y ∈ s, isReady s y = true ∧ x.time ≤ y.time := by
  suffices hstep : ∀ n, ∀ x ∈ s, rank x.hash < n →
      ∃ y ∈ s, isReady s y = true ∧ x.time ≤ y.time by
    exact fun x hx => hstep (rank x.hash + 1) x hx (Nat.lt_succ_self _)
  intro n
  induction n with
  | zero => exact fun x _ h0 => absurd h0 (Nat.not_lt_zero _)
  | succ n ih =>
    intro x hx hlt
    by_cases hready : isReady s x = true
    · exact ⟨x, hx, hready, le_refl _⟩
    · obtain ⟨d, hd, hpar⟩ := not_isReady_child s x hready
      have h1 : rank d.hash < rank x.hash := hrank d hd x hx hpar
      have h2 : x.time ≤ d.time := hns d hd x hx hpar
      obtain ⟨y, hy, hyready, hle⟩ := ih d hd (by omega)
      exact ⟨y, hy, hyready, le_trans h2 hle⟩

theorem topoTimeWalk_pairwise (rank : RStr → Nat) :
    ∀ (n : Nat) (s : List RepoCommit), s.length = n →
      (∀ d ∈ s, ∀ c ∈ s, c.hash ∈ d.parents → rank d.hash < rank c.hash) →
      List.Pairwise (fun a b => a.hash ∉ b.parents) (topoTimeWalk n s) := by
  intro n
  induction n with
  | zero => exact fun s _ _ => List.Pairwise.nil
  | succ n ih =>
    intro s hlen hrank
    have hs : s ≠ [] := by
      intro h; rw [h] at hlen; simp at hlen
    have hfne := ready_filter_ne_nil rank s hrank hs
    have hroa : readyOrAll s = s.filter (isReady s) := by
      unfold readyOrAll
      rw [if_neg hfne]
    obtain ⟨c, hc⟩ := maxByTime_isSome (readyOrAll_ne_nil hs)
    have hcf : c ∈ s.filter (isReady s) := hroa ▸ maxByTime_mem hc
    have hcs : c ∈ s := (List.mem_filter.mp hcf).1
    have hcready : isReady s c = true := (List.mem_filter.mp hcf).2
    have hwalk : topoTimeWalk (n + 1) s = c :: topoTimeWalk n (s.erase c) := by
      simp only [topoTimeWalk, hc]
    rw [hwalk]
    refine List.pairwise_cons.mpr ⟨?_, ?_⟩
    · intro b hb
      have hb2 : b ∈ s.erase c :=
        (topoTimeWalk_perm n (s.erase c)
          (by rw [List.length_erase_of_mem hcs, hlen]; rfl)).mem_iff.mp hb
      exact (isReady_iff s c).mp hcready b (List.mem_of_mem_erase hb2)
    · refine ih (s.erase c)
        (by rw [List.length_erase_of_mem hcs, hlen]; rfl) ?_
      intro d hd c2 hc2 hpar
      exact hrank d (List.mem_of_mem_erase hd) c2 (List.mem_of_mem_erase hc2)
        hpar

theorem topoTimeWalk_sorted (rank : RStr → Nat) :
    ∀ (n : Nat) (s : List RepoCommit), s.length = n →
      (∀ d ∈ s, ∀ c ∈ s, c.hash ∈ d.parents → rank d.hash < rank c.hash) →
      (∀ d ∈ s, ∀ c ∈ s, c.hash ∈ d.parents → c.time ≤ d.time) →
      List.Sorted newestFirst (topoTimeWalk n s) := by
  intro n
  induction n with
  | zero => exact fun s _ _ _ => List.sorted_nil
  | succ n ih =>
    intro s hlen hrank hns
    have hs : s ≠ [] := by
      intro h; rw [h] at hlen; simp at hlen
    have hfne := ready_filter_ne_nil rank s hrank hs
    have hroa : readyOrAll s = s.filter (isReady s) := by
      unfold readyOrAll
      rw [if_neg hfne]
    obtain ⟨c, hc⟩ := maxByTime_isSome (readyOrAll_ne_nil hs)
    have hcs : c ∈ s := readyOrAll_subset s (maxByTime_mem hc)
    have hcmax : ∀ x ∈ s, x.time ≤ c.time := by
      intro x hx
      obtain ⟨y, hy, hyready, hle⟩ :=
        exists_ready_time_ge rank s hrank hns x hx
      have hyf : y ∈ readyOrAll s := by
        rw [hroa]
        exact List.mem_filter.mpr ⟨hy, hyready⟩
      exact le_trans hle (maxByTime_time_le hc y hyf)
    have hwalk : topoTimeWalk (n + 1) s = c :: topoTimeWalk n (s.erase c) := by
      simp only [topoTimeWalk, hc]
    rw [hwalk]
    refine List.sorted_cons.mpr ⟨?_, ?_⟩
    · intro b hb
      have hb2 : b ∈ s.erase c :=
        (topoTimeWalk_perm n (s.erase c)
          (by rw [List.length_erase_of_mem hcs, hlen]; rfl)).mem_iff.mp hb
      exact hcmax b (List.mem_of_mem_erase hb2)
    · refine ih (s.erase c)
        (by rw [List.length_erase_of_mem hcs, hlen]; rfl) ?_ ?_
      · intro d hd c2 hc2 hpar
        exact hrank d (List.mem_of_mem_erase hd) c2 (List.mem_of_mem_erase hc2)
          hpar
      · intro d hd c2 hc2 hpar
        exact hns d (List.mem_of_mem_erase hd) c2 (List.mem_of_mem_erase hc2)
          hpar

/-- C6 (counterexample): on the clock-skewed linear history
A(t=1) → B(t=5) → C(t=3), the range (A, C] is walked [C, B] — the
topological constraint emits the child C first although its parent B has
the newer timestamp — so the output is NOT timestamp-descending
("newest-first" in the plain sense). -/
theorem commit_range_not_time_sorted_cex :
    get_commit_range repoSkew (str "a") (str "c") = .ok [skewTipC, skewMidB]
    ∧ ¬ List.Sorted newestFirst [skewTipC, skewMidB] := by
  refine ⟨by rfl, ?_⟩
  intro hsorted
  have := (List.sorted_cons.mp hsorted).1 skewMidB (List.mem_singleton.mpr rfl)
  exact absurd this (by decide)

/-- C6 (amended): `get_commit_range(from, to)` returns exactly the commits
reachable from `to` and not reachable from `from` (`from` exclusive, `to`
inclusive), emitted in the walk's combined time+topological order: a parent
is never shown before one of its children (for any rank function witnessing
the commit graph's acyclicity), and the output is newest-first
(timestamp-descending) whenever timestamps are consistent with the
topology — under clock skew the topological constraint overrides timestamp
order.  On the linear history A(root) → B → C the range (A, C] is exactly
[C, B]; on the skewed history it is [C, B] as well, by topology; and the
call fails with an error when either endpoint does not resolve to a known
commit. -/
theorem commit_range_topo_time_semantics :
    (∀ repo fr tc l, get_commit_range repo fr tc = .ok l →
      ∀ c, c ∈ l ↔ c ∈ repo.commits
          ∧ reachable repo tc c.hash = true
          ∧ reachable repo fr c.hash = false)
    ∧ (∀ repo fr tc l (rank : RStr → Nat),
        (∀ d ∈ repo.commits, ∀ c ∈ repo.commits,
            c.hash ∈ d.parents → rank d.hash < rank c.hash) →
        get_commit_range repo fr tc = .ok l →
        List.Pairwise (fun a b => a.hash ∉ b.parents) l
        ∧ ((∀ d ∈ repo.commits, ∀ c ∈ repo.commits,
              c.hash ∈ d.parents → c.time ≤ d.time) →
            List.Sorted newestFirst l))
    ∧ get_commit_range repoABC (str "a") (str "c")
        = .ok [commitTipC, commitMidB]
    ∧ get_commit_range repoSkew (str "a") (str "c")
        = .ok [skewTipC, skewMidB]
    ∧ (∀ repo fr tc,
        (lookupCommit repo fr = none ∨ lookupCommit repo tc = none)
          → get_commit_range repo fr tc = .error GitError.invalidReference) := by
  refine ⟨?_, ?_, by rfl, by rfl, ?_⟩
  · intro repo fr tc l h
    unfold get_commit_range at h
    split at h
    · have hl := (Except.ok.inj h).symm
      subst hl
      intro c
      rw [(topoTimeWalk_perm (walkSet repo fr tc).length
        (walkSet repo fr tc) rfl).mem_iff]
      simp [walkSet, List.mem_filter, Bool.and_eq_true, Bool.not_eq_true']
    · exact absurd h (by simp)
  · intro repo fr tc l rank hrank h
    unfold get_commit_range at h
    split at h
    · have hl := (Except.ok.inj h).symm
      subst hl
      have hsub : ∀ x ∈ walkSet repo fr tc, x ∈ repo.commits :=
        fun x hx => (List.mem_filter.mp hx).1
      constructor
      · exact topoTimeWalk_pairwise rank (walkSet repo fr tc).length
          (walkSet repo fr tc) rfl
          (fun d hd c hc hpar => hrank d (hsub d hd) c (hsub c hc) hpar)
      · intro hns
        exact topoTimeWalk_sorted rank (walkSet repo fr tc).length
          (walkSet repo fr tc) rfl
          (fun d hd c hc hpar => hrank d (hsub d hd) c (hsub c hc) hpar)
          (fun d hd c hc hpar => hns d (hsub d hd) c (hsub c hc) hpar)
    · exact absurd h (by simp)
  · intro repo fr tc h
    rcases h with h | h
    · cases ht : lookupCommit repo tc <;> simp [get_commit_range, h, ht]
    · cases hf : lookupCommit repo fr <;> simp [get_commit_range, h, hf]

/-- C2: the claim states parsing never fails or crashes for any response
string; in fact `parse_response` PANICS on any response whose first opening
brace follows its last closing brace, because `&response[start..=end]` is a
Rust slice with start byte 4 and (exclusive) end byte 1.  The panic occurs
before the serde parser is consulted, so it holds for every deserializer. -/
theorem parse_response_panics_on_brace_order :
    ∀ jp : RStr → Option RawContext, parse_response jp reorderedBraces = none := by
  intro jp
  rfl

set_option maxRecDepth 8000 in
/-- C7 (counterexample): for a brace-free response of 150 two-byte characters
(300 bytes), the fallback summary keeps the first 200 BYTES, i.e. only the
first 100 characters — not the first 200 characters, which here would be the
whole 150-character text. -/
theorem parse_response_fallback_bytes_cex :
    (parse_response (fun _ => none) (List.replicate 150 eAcute)).map
        (fun c => c.summary)
      = some (str "Raw LLM response: " ++ List.replicate 100 eAcute)
    ∧ List.take 200 (List.replicate 150 eAcute) = List.replicate 150 eAcute
    ∧ str "Raw LLM response: " ++ List.replicate 100 eAcute
        ≠ str "Raw LLM response: " ++ List.replicate 150 eAcute := by
  refine ⟨by decide, by decide, by decide⟩

/-- C7 (amended): when the response is non-empty and the brace-delimited
structural parse falls through (no brace pair, or the deserializer rejects
the slice), `parse_response` returns the fallback record: summary is the
fixed prefix `"Raw LLM response: "` followed by the first
`min(len, 200)` BYTES of the raw response (panicking when byte 200 is not a
character boundary), with empty collections and impact `"low"`; in
particular, for the body `"I cannot help with that"` the summary contains
the original text (see the witness). -/
theorem parse_response_fallback_record (jp : RStr → Option RawContext)
    (response : RStr) (h1 : response ≠ [])
    (h2 : braceStep jp response = BraceOutcome.fallthrough) :
    parse_response jp response
      = (takeBytes response (min (byteLen response) 200)).map (fun p =>
          ⟨str "Raw LLM response: " ++ p, [], [], [], str "low"⟩) := by
  unfold parse_response
  simp only [h1, if_neg h1, h2]
  rfl

/-- C7 (witness): the body `"I cannot help with that"` yields the fallback
record whose summary contains the original text, with empty collections and
impact `"low"`. -/
theorem parse_response_fallback_record_witness :
    parse_response (fun _ => none) (str "I cannot help with that")
      = some ⟨str "Raw LLM response: I cannot help with that",
          [], [], [], str "low"⟩ := by
  rw [parse_response_fallback_record (fun _ => none)
    (str "I cannot help with that") (by decide) (by decide)]
  decide

theorem sync_context_run (env : SyncEnv) (g0 : List GlobalContext)
    (t0 : List TtlMemory) (commits : List CommitInfo)
    (hne : commits ≠ [])
    (hretne : commits.reverse.filter (dedupKeep env g0) ≠ [])
    (hOll : env.ollamaRunning = true) :
    sync_context env g0 t0 commits
      = .ok ⟨(syncLoop env (commits.reverse.filter (dedupKeep env g0)) g0 t0).1,
          (syncLoop env (commits.reverse.filter (dedupKeep env g0)) g0 t0).2.1,
          commits.reverse.length
            - (commits.reverse.filter (dedupKeep env g0)).length,
          (syncLoop env (commits.reverse.filter (dedupKeep env g0)) g0 t0).2.2⟩ := by
  unfold sync_context
  rw [if_neg hne, if_neg hretne, if_neg (by simp [hOll])]

theorem has_commit_iff (rows : List GlobalContext) (h : RStr) :
    has_commit rows h = true ↔ ∃ r ∈ rows, r.commit_hash = h := by
  unfold has_commit
  rw [decide_eq_true_eq, List.countP_pos]
  simp

theorem has_commit_store_self (now : Int) (g : List GlobalContext)
    (c : CommitInfo) (s : RStr) (fs : List RStr) (j : RStr) :
    has_commit (store_global_context now g c s fs j) c.hash = true := by
  rw [has_commit_iff]
  exact ⟨_, List.mem_append_right _ (List.mem_singleton.mpr rfl), rfl⟩

theorem has_commit_store_mono (now : Int) (g : List GlobalContext)
    (c : CommitInfo) (s : RStr) (fs : List RStr) (j : RStr) (h : RStr)
    (hh : has_commit g h = true) :
    has_commit (store_global_context now g c s fs j) h = true := by
  by_cases hch : h = c.hash
  · subst hch; exact has_commit_store_self now g c s fs j
  · rw [has_commit_iff] at hh ⊢
    rcases hh with ⟨r, hr, hrh⟩
    refine ⟨r, List.mem_append_left _ (List.mem_filter.mpr ⟨hr, ?_⟩), hrh⟩
    simp only [hrh, ne_eq, decide_not, Bool.not_eq_true', decide_eq_false_iff_not]
    exact hch

theorem countP_filter_hash_ne (g : List GlobalContext) (ch h : RStr)
    (hne : ch ≠ h) :
    (g.filter (fun r => decide (r.commit_hash ≠ ch))).countP
        (fun r => decide (r.commit_hash = h))
      = g.countP (fun r => decide (r.commit_hash = h)) := by
  induction g with
  | nil => rfl
  | cons r rs ih =>
    simp only [ne_eq, decide_not] at ih ⊢
    by_cases hrc : r.commit_hash = ch
    · have hr : ¬r.commit_hash = h := by rw [hrc]; exact hne
      simp [List.filter_cons, List.countP_cons, hrc, hr, hne, ih]
    · simp [List.filter_cons, List.countP_cons, hrc, ih]

theorem has_commit_store_other (now : Int) (g : List GlobalContext)
    (c : CommitInfo) (s : RStr) (fs : List RStr) (j : RStr) (h : RStr)
    (hne : c.hash ≠ h) :
    has_commit (store_global_context now g c s fs j) h = has_commit g h := by
  unfold has_commit store_global_context
  rw [List.countP_append]
  have h1 : List.countP (fun r => decide (r.commit_hash = h))
      [(⟨maxRowId g + 1, c.hash, c.message, c.date, s, fs, j, now⟩ :
        GlobalContext)] = 0 := by
    simp [List.countP_cons, hne]
  rw [h1, countP_filter_hash_ne g c.hash h hne]
  simp

theorem dedupKeep_of_fault (env : SyncEnv) (g : List GlobalContext)
    (c : CommitInfo) (hf : env.hasCommitFault c.hash = true) :
    dedupKeep env g c = true := by
  simp [dedupKeep, has_commit_result, hf, unwrapOr]

theorem dedupKeep_empty_store (env : SyncEnv) (c : CommitInfo) :
    dedupKeep env [] c = true := by
  by_cases hf : env.hasCommitFault c.hash <;>
    simp [dedupKeep, has_commit_result, hf, unwrapOr, has_commit]

theorem dedupKeep_no_fault (env : SyncEnv) (g : List GlobalContext)
    (c : CommitInfo) (hf : env.hasCommitFault c.hash = false) :
    dedupKeep env g c = ! has_commit g c.hash := by
  simp [dedupKeep, has_commit_result, hf, unwrapOr]

theorem syncLoop_outcome_hashes (env : SyncEnv) (cs : List CommitInfo) :
    ∀ (g : List GlobalContext) (t : List TtlMemory),
      ((syncLoop env cs g t).2.2).map (fun o => o.1)
        = cs.map (fun c => c.hash) := by
  induction cs with
  | nil => intro g t; rfl
  | cons c cs ih =>
    intro g t
    rcases hres : process_commit env g t c with ⟨r, g2, t2⟩
    cases r <;> simp [syncLoop, hres, ih]

theorem syncLoop_stores (env : SyncEnv) (cs : List CommitInfo) :
    ∀ (g : List GlobalContext) (t : List TtlMemory),
      (∀ c ∈ cs, ∃ d x, env.getDiff c.hash = .ok d ∧
          env.extract c.message d (changedFiles d) none = .ok x) →
      (∀ h, has_commit g h = true → has_commit (syncLoop env cs g t).1 h = true)
      ∧ (∀ c ∈ cs, has_commit (syncLoop env cs g t).1 c.hash = true) := by
  induction cs with
  | nil =>
    intro g t _
    exact ⟨fun h hh => hh, fun c hc => absurd hc (List.not_mem_nil c)⟩
  | cons c cs ih =>
    intro g t hok
    obtain ⟨d, x, hd, hx⟩ := hok c (List.mem_cons_self c cs)
    have hok2 : ∀ c2 ∈ cs, ∃ d2 x2, env.getDiff c2.hash = .ok d2 ∧
        env.extract c2.message d2 (changedFiles d2) none = .ok x2 :=
      fun c2 hc2 => hok c2 (List.mem_cons_of_mem c hc2)
    have hproc : process_commit env g t c
        = (.ok x,
           store_global_context env.now g c x.summary (changedFiles d) (str ""),
           store_ttl_memory env.now t c.hash x.summary env.ttlDays) := by
      simp [process_commit, hd, hx]
    have hstep : (syncLoop env (c :: cs) g t).1
        = (syncLoop env cs
            (store_global_context env.now g c x.summary (changedFiles d) (str ""))
            (store_ttl_memory env.now t c.hash x.summary env.ttlDays)).1 := by
      simp [syncLoop, hproc]
    have key := ih
      (store_global_context env.now g c x.summary (changedFiles d) (str ""))
      (store_ttl_memory env.now t c.hash x.summary env.ttlDays) hok2
    constructor
    · intro h hh
      rw [hstep]
      exact key.1 h (has_commit_store_mono env.now g c x.summary
        (changedFiles d) (str "") h hh)
    · intro c2 hc2
      rw [hstep]
      rcases List.mem_cons.mp hc2 with h2 | h2
      · subst h2
        exact key.1 _ (has_commit_store_self env.now g c2 x.summary
          (changedFiles d) (str ""))
      · exact key.2 c2 h2

theorem sync_all_processed (env : SyncEnv) (g : List GlobalContext)
    (t : List TtlMemory) (commits : List CommitInfo) (hne : commits ≠ [])
    (hnofault : ∀ h, env.hasCommitFault h = false)
    (hall : ∀ c ∈ commits, has_commit g c.hash = true) :
    sync_context env g t commits = .ok ⟨g, t, commits.length, []⟩ := by
  have hfilter : commits.reverse.filter (dedupKeep env g) = [] := by
    rw [List.filter_eq_nil]
    intro c hc
    rw [dedupKeep_no_fault env g c (hnofault c.hash),
      hall c (List.mem_reverse.mp hc)]
    simp
  simp [sync_context, hne, hfilter]

/-- C8: a second sync over an unchanged candidate list is idempotent for the
durable table: when the first run's extractions all succeed (and the dedup
store reads do not fault), after it every candidate's hash is found by
`has_commit`, so the second run drops every candidate during dedup, reports
them all as skipped (already processed), runs no extraction, and leaves both
tables exactly as the first run left them — zero new durable entries. -/
theorem sync_idempotent_second_run (env : SyncEnv) (g0 : List GlobalContext)
    (t0 : List TtlMemory) (commits : List CommitInfo)
    (hne : commits ≠ [])
    (hnofault : ∀ h, env.hasCommitFault h = false)
    (hOll : env.ollamaRunning = true)
    (hok : ∀ c ∈ commits, ∃ d x, env.getDiff c.hash = .ok d ∧
        env.extract c.message d (changedFiles d) none = .ok x) :
    ∃ rep1, sync_context env g0 t0 commits = .ok rep1
      ∧ (∀ c ∈ commits, has_commit rep1.global c.hash = true)
      ∧ sync_context env rep1.global rep1.ttl commits
          = .ok ⟨rep1.global, rep1.ttl, commits.length, []⟩ := by
  by_cases hret : commits.reverse.filter (dedupKeep env g0) = []
  · refine ⟨⟨g0, t0, commits.length, []⟩, ?_, ?_, ?_⟩
    · simp [sync_context, hne, hret]
    · intro c hc
      have hkeep := List.filter_eq_nil.mp hret c (List.mem_reverse.mpr hc)
      rw [dedupKeep_no_fault env g0 c (hnofault c.hash)] at hkeep
      simpa using hkeep
    · refine sync_all_processed env g0 t0 commits hne hnofault ?_
      intro c hc
      have hkeep := List.filter_eq_nil.mp hret c (List.mem_reverse.mpr hc)
      rw [dedupKeep_no_fault env g0 c (hnofault c.hash)] at hkeep
      simpa using hkeep
  · have hokr : ∀ c ∈ commits.reverse.filter (dedupKeep env g0),
        ∃ d x, env.getDiff c.hash = .ok d ∧
          env.extract c.message d (changedFiles d) none = .ok x :=
      fun c hc =>
        hok c (List.mem_reverse.mp (List.mem_filter.mp hc).1)
    have hstores := syncLoop_stores env
      (commits.reverse.filter (dedupKeep env g0)) g0 t0 hokr
    have hall : ∀ c ∈ commits,
        has_commit (syncLoop env
          (commits.reverse.filter (dedupKeep env g0)) g0 t0).1 c.hash
          = true := by
      intro c hc
      by_cases hg0 : has_commit g0 c.hash = true
      · exact hstores.1 c.hash hg0
      · refine hstores.2 c (List.mem_filter.mpr ⟨List.mem_reverse.mpr hc, ?_⟩)
        rw [dedupKeep_no_fault env g0 c (hnofault c.hash),
          Bool.eq_false_iff.mpr hg0]
        rfl
    refine ⟨⟨(syncLoop env (commits.reverse.filter (dedupKeep env g0)) g0 t0).1,
      (syncLoop env (commits.reverse.filter (dedupKeep env g0)) g0 t0).2.1,
      commits.reverse.length
        - (commits.reverse.filter (dedupKeep env g0)).length,
      (syncLoop env (commits.reverse.filter (dedupKeep env g0)) g0 t0).2.2⟩,
      ?_, hall, ?_⟩
    · exact sync_context_run env g0 t0 commits hne hret hOll
    · exact sync_all_processed env _ _ commits hne hnofault hall

/-- C8 (witness): syncing the single-commit batch twice inserts nothing on
the second run and reports the candidate as already processed. -/
theorem sync_idempotent_second_run_witness :
    ∃ rep1, sync_context envW8 [] [] [commitW8] = .ok rep1
      ∧ (∀ c ∈ [commitW8], has_commit rep1.global c.hash = true)
      ∧ sync_context envW8 rep1.global rep1.ttl [commitW8]
          = .ok ⟨rep1.global, rep1.ttl, [commitW8].length, []⟩ :=
  sync_idempotent_second_run envW8 [] [] [commitW8] (by simp)
    (fun _ => rfl) rfl
    (fun c hc => by
      rw [List.mem_singleton] at hc
      subst hc
      exact ⟨[], ctxW8, rfl, rfl⟩)

/-- C9: a commit whose dedup-time `has_commit` store read returns an error
is treated as not yet processed: `!result.unwrap_or(false)` keeps it in the
batch, it reappears in the per-commit outcomes for re-extraction, and no
store read failure ever surfaces as an error of the sync invocation (the
only fatal error after candidate resolution is the preflight failure). -/
theorem dedup_store_error_keeps_commit (env : SyncEnv)
    (g0 : List GlobalContext) (t0 : List TtlMemory)
    (commits : List CommitInfo) (c : CommitInfo)
    (hc : c ∈ commits) (hfault : env.hasCommitFault c.hash = true)
    (hOll : env.ollamaRunning = true) :
    dedupKeep env g0 c = true
    ∧ c ∈ commits.reverse.filter (dedupKeep env g0)
    ∧ (∀ e, sync_context env g0 t0 commits ≠ .error e)
    ∧ ∃ rep, sync_context env g0 t0 commits = .ok rep
        ∧ c.hash ∈ rep.outcomes.map (fun o => o.1) := by
  have hkeep := dedupKeep_of_fault env g0 c hfault
  have hmemret : c ∈ commits.reverse.filter (dedupKeep env g0) :=
    List.mem_filter.mpr ⟨List.mem_reverse.mpr hc, hkeep⟩
  have hne : commits ≠ [] := by
    rintro rfl
    exact absurd hc (List.not_mem_nil c)
  have hretne : commits.reverse.filter (dedupKeep env g0) ≠ [] := by
    intro h0
    rw [h0] at hmemret
    exact absurd hmemret (List.not_mem_nil c)
  have hsync : sync_context env g0 t0 commits
      = .ok ⟨(syncLoop env (commits.reverse.filter (dedupKeep env g0)) g0 t0).1,
          (syncLoop env (commits.reverse.filter (dedupKeep env g0)) g0 t0).2.1,
          commits.reverse.length
            - (commits.reverse.filter (dedupKeep env g0)).length,
          (syncLoop env (commits.reverse.filter (dedupKeep env g0)) g0 t0).2.2⟩ :=
    sync_context_run env g0 t0 commits hne hretne hOll
  refine ⟨hkeep, hmemret, ?_, ?_⟩
  · intro e
    rw [hsync]
    simp
  · refine ⟨_, hsync, ?_⟩
    rw [syncLoop_outcome_hashes]
    exact List.mem_map_of_mem (fun x => x.hash) hmemret

/-- C5: partial-failure isolation — for a fresh store and a three-commit
batch (given newest first, processed oldest first) whose second commit's
extraction fails with a backend error while the first and third succeed,
the loop is not aborted: the first and third commits' hashes end up in the
durable table, the second's does not, and the per-commit outcomes report
exactly one failure and two successes, in processing order. -/
theorem sync_partial_failure_isolation (env : SyncEnv)
    (c1 c2 c3 : CommitInfo) (d1 d2 d3 : RStr) (x1 x3 : ExtractedContext)
    (h12 : c1.hash ≠ c2.hash) (h13 : c1.hash ≠ c3.hash)
    (h23 : c2.hash ≠ c3.hash)
    (hD1 : env.getDiff c1.hash = .ok d1)
    (hX1 : env.extract c1.message d1 (changedFiles d1) none = .ok x1)
    (hD2 : env.getDiff c2.hash = .ok d2)
    (hX2 : env.extract c2.message d2 (changedFiles d2) none = .error ())
    (hD3 : env.getDiff c3.hash = .ok d3)
    (hX3 : env.extract c3.message d3 (changedFiles d3) none = .ok x3)
    (hOll : env.ollamaRunning = true) :
    ∃ rep, sync_context env [] [] [c3, c2, c1] = .ok rep
      ∧ has_commit rep.global c1.hash = true
      ∧ has_commit rep.global c3.hash = true
      ∧ has_commit rep.global c2.hash = false
      ∧ rep.outcomes = [(c1.hash, true), (c2.hash, false), (c3.hash, true)]
      ∧ rep.outcomes.countP (fun o => o.2) = 2
      ∧ rep.outcomes.countP (fun o => ! o.2) = 1 := by
  have hret : ([c3, c2, c1] : List CommitInfo).reverse.filter
      (dedupKeep env []) = [c1, c2, c3] := by
    show ([c1, c2, c3] : List CommitInfo).filter (dedupKeep env [])
      = [c1, c2, c3]
    simp [List.filter_cons, dedupKeep_empty_store]
  have hloop : syncLoop env [c1, c2, c3] [] []
      = (store_global_context env.now
           (store_global_context env.now [] c1 x1.summary
             (changedFiles d1) (str ""))
           c3 x3.summary (changedFiles d3) (str ""),
         store_ttl_memory env.now
           (store_ttl_memory env.now [] c1.hash x1.summary env.ttlDays)
           c3.hash x3.summary env.ttlDays,
         [(c1.hash, true), (c2.hash, false), (c3.hash, true)]) := by
    simp [syncLoop, process_commit, hD1, hX1, hD2, hX2, hD3, hX3]
  have hsync := sync_context_run env [] [] [c3, c2, c1] (by simp)
    (by rw [hret]; simp) hOll
  rw [hret, hloop] at hsync
  refine ⟨_, hsync, ?_, ?_, ?_, rfl, rfl, rfl⟩
  · show has_commit
      (store_global_context env.now
        (store_global_context env.now [] c1 x1.summary
          (changedFiles d1) (str ""))
        c3 x3.summary (changedFiles d3) (str "")) c1.hash = true
    rw [has_commit_store_other env.now
      (store_global_context env.now [] c1 x1.summary (changedFiles d1)
        (str ""))
      c3 x3.summary (changedFiles d3) (str "") c1.hash (Ne.symm h13)]
    exact has_commit_store_self env.now [] c1 x1.summary (changedFiles d1)
      (str "")
  · exact has_commit_store_self env.now
      (store_global_context env.now [] c1 x1.summary (changedFiles d1)
        (str ""))
      c3 x3.summary (changedFiles d3) (str "")
  · show has_commit
      (store_global_context env.now
        (store_global_context env.now [] c1 x1.summary
          (changedFiles d1) (str ""))
        c3 x3.summary (changedFiles d3) (str "")) c2.hash = false
    rw [has_commit_store_other env.now
      (store_global_context env.now [] c1 x1.summary (changedFiles d1)
        (str ""))
      c3 x3.summary (changedFiles d3) (str "") c2.hash (Ne.symm h23),
      has_commit_store_other env.now [] c1 x1.summary (changedFiles d1)
        (str "") c2.hash h12]
    rfl

/-- C5 (witness): with the second of three commits failing, the other two
are persisted and the batch reports two successes and one failure. -/
theorem sync_partial_failure_isolation_witness :
    ∃ rep, sync_context envW5 [] [] [commitW5c, commitW5b, commitW5a]
        = .ok rep
      ∧ has_commit rep.global commitW5a.hash = true
      ∧ has_commit rep.global commitW5c.hash = true
      ∧ has_commit rep.global commitW5b.hash = false
      ∧ rep.outcomes = [(commitW5a.hash, true), (commitW5b.hash, false),
          (commitW5c.hash, true)]
      ∧ rep.outcomes.countP (fun o => o.2) = 2
      ∧ rep.outcomes.countP (fun o => ! o.2) = 1 :=
  sync_partial_failure_isolation envW5 commitW5a commitW5b commitW5c
    [] [] [] ⟨str "s5", [], [], [], str "low"⟩ ⟨str "s5", [], [], [], str "low"⟩
    (by decide) (by decide) (by decide) rfl rfl rfl rfl rfl rfl rfl

/-- C1: the claim states each commit's extraction is invoked with the
previous-summary equal to the summary most recently stored before it.  In
fact `ContextProcessor::process_commit` never calls
`get_latest_context_summary` and passes no previous-context argument (its
`extract_context` call names only message, diff and files, omitting the
fourth parameter), so with a backend whose returned summary records the
previous-context argument it was invoked with, all three stored summaries
read `"NOPREV"` — even though after commit 1 the store already held its
summary and `get_latest_context_summary` would have returned it — instead
of the `"PREV:"`-prefixed value the claimed chaining would produce for
commits 2 and 3. -/
theorem chaining_previous_summary_not_passed :
    ((sync_context probeEnv [] [] [batchC, batchB, batchA]).map (fun rep =>
        rep.global.map (fun r => (r.commit_hash, r.context_summary))))
      = .ok [(str "ca", str "NOPREV"), (str "cb", str "NOPREV"),
          (str "cc", str "NOPREV")]
    ∧ get_latest_context_summary
        (process_commit probeEnv [] [] batchA).2.1 = some (str "NOPREV")
    ∧ str "NOPREV" ≠ encodePrev (some (str "NOPREV")) :=
  ⟨by rfl, by rfl, by decide⟩

/-- C9 (witness): with a faulting store read, the commit is kept, processed,
and the invocation still succeeds. -/
theorem dedup_store_error_keeps_commit_witness :
    dedupKeep envW9 [] commitW9 = true
    ∧ commitW9 ∈ [commitW9].reverse.filter (dedupKeep envW9 [])
    ∧ (∀ e, sync_context envW9 [] [] [commitW9] ≠ .error e)
    ∧ ∃ rep, sync_context envW9 [] [] [commitW9] = .ok rep
        ∧ commitW9.hash ∈ rep.outcomes.map (fun o => o.1) :=
  dedup_store_error_keeps_commit envW9 [] [] [commitW9] commitW9
    (by simp) rfl rfl

end ContextHub
